import Mathlib

/-!
# Verification of the rosbag2pandas conversion pipeline

Shallow embedding of `src/rosbag2pandas/rosbag2pandas.py`.  The program is a
linear batch pipeline: collect raw records and timestamps per channel from a
bag, decode every channel's records with an order-preserving parallel map,
join each channel's timestamps with its flattened decoded fields, sort by
timestamp and write one table per channel.

External collaborators (the rosbag reader, the ROS message registry, the
deserializer, `message_to_ordereddict`) are modelled as parameters; the
pandas operations used by the source (`json_normalize`, `DataFrame`, `join`,
`sort_values`) are embedded from their documented behaviour on the shapes
this program feeds them.  `sort_values` is called with its default
`kind='quicksort'`, which pandas documents as *not* stable, so sorting is
modelled as any function satisfying the sort contract (`SortSpec`).
-/

namespace Rosbag2Pandas

/-- A cell of a pandas DataFrame as used here: an integer value or NaN
(NaN appears only when a left join finds no matching right row). -/
inductive Val where
  | int : Int → Val
  | nan : Val
deriving DecidableEq, Repr

/-- Comparison used for sorting by the timestamp column; timestamps are
always integers in this pipeline, NaN is ordered last (pandas default
`na_position='last'`). -/
def cellLe : Val → Val → Bool
  | .int a, .int b => decide (a ≤ b)
  | .int _, .nan => true
  | .nan, .int _ => false
  | .nan, .nan => true

/-- A nested value produced by `message_to_ordereddict`: a scalar leaf or a
nested ordered mapping of field name to value. -/
inductive JValue where
  | scalar : Int → JValue
  | obj : List (String × JValue) → JValue

/-- A decoded record: an ordered mapping from field name to value
(a Python `OrderedDict`). -/
abbrev RecordObj := List (String × JValue)

/-- `c` replaced by `_` when it is the path separator; `str.replace("/", "_")`
acts character-wise since the pattern is a single character. -/
def mapSlash (c : Char) : Char := if c = '/' then '_' else c

/-- The file base name computed by `save_to_file` (line 50-52):
`(topic_name if topic_name[0] != "/" else topic_name.lstrip("/")).replace("/", "_")`.
`topic_name[0]` raises `IndexError` on an empty string, hence `Except`;
`lstrip("/")` strips **all** leading `/` characters. -/
def fileNameE (topic_name : String) : Except String String :=
  match topic_name.data with
  | [] => .error "string index out of range"
  | c :: cs =>
      .ok ⟨(if c ≠ '/' then c :: cs
            else (c :: cs).dropWhile (fun ch => ch == '/')).map mapSlash⟩

/-- Modelled from the spec's words (for comparison only, not from the source):
"stripping a single leading path separator if present, then replacing all
remaining path separators with underscores". -/
def specFileName (topic_name : String) : String :=
  ⟨(match topic_name.data with
    | '/' :: rest => rest
    | l => l).map mapSlash⟩

/-- The external collaborators of the pipeline: the ROS type registry
(`get_message`), the CDR deserializer (`deserialize_message`) and the
message-to-`OrderedDict` converter (`message_to_ordereddict`). -/
structure Externals (MsgType Msg : Type) where
  get_message : String → MsgType
  deserialize_message : List Nat → MsgType → Msg
  message_to_ordereddict : Msg → RecordObj

/-- `parse_data` (line 16-27): deserialize raw bytes against the message
type and convert the message to an ordered dictionary. -/
def parse_data {MsgType Msg : Type} (ext : Externals MsgType Msg)
    (message_type : MsgType) (data : List Nat) : RecordObj :=
  ext.message_to_ordereddict (ext.deserialize_message data message_type)

/-- Splits a list into consecutive chunks of size `n` (the batching done by
`Pool.imap(..., chunksize=500)`). -/
def chunksOf (n : Nat) : List α → List (List α)
  | [] => []
  | x :: xs => (x :: xs.take (n - 1)) :: chunksOf n (xs.drop (n - 1))
termination_by l => l.length
decreasing_by
  simp only [List.length_cons, List.length_drop]
  omega

/-- The Parallel Decode Stage (lines 139-152): `pool.imap` distributes the
raw records in chunks of 500 to the worker pool and yields the results in
input order; the main flow collects them with `list(...)`. -/
def decodeStage {MsgType Msg : Type} (ext : Externals MsgType Msg)
    (message_type : MsgType) (raw_data : List (List Nat)) : List RecordObj :=
  ((chunksOf 500 raw_data).map (fun chunk => chunk.map (parse_data ext message_type))).flatten

/-! ## The pandas fragment used by `save_to_file` -/

/-- A row of a DataFrame: its pandas index together with its cells. -/
abbrev Row := Nat × List Val

/-- A pandas DataFrame restricted to what the program builds: named columns
and indexed rows. -/
structure DF where
  cols : List String
  rows : List Row
deriving DecidableEq, Repr

/-- `pre` and `k` combined into the dotted path used by
`pd.json_normalize` (`nested_to_record` with `sep="."`). -/
def dotKey (pre k : String) : String := if pre = "" then k else pre ++ "." ++ k

mutual
/-- Flattening of one value under a dotted path prefix, as done by
`pd.json_normalize`: a scalar yields one leaf entry, a nested mapping is
expanded in place. -/
def flattenVal (key : String) : JValue → List (String × Int)
  | .scalar v => [(key, v)]
  | .obj fs => flattenFields key fs

/-- Flattening of an ordered field mapping under a prefix, in field order. -/
def flattenFields (pre : String) : List (String × JValue) → List (String × Int)
  | [] => []
  | (k, v) :: rest => flattenVal (dotKey pre k) v ++ flattenFields pre rest
end

/-- The dotted leaf paths of a decoded record, in schema order. -/
def recordPaths (r : RecordObj) : List String := (flattenFields "" r).map (·.1)

/-- Accumulates column names in first-seen order (how `pd.DataFrame` unions
the keys of a list of mappings). -/
def insertKeys (cols ks : List String) : List String :=
  ks.foldl (fun acc k => if k ∈ acc then acc else acc ++ [k]) cols

/-- The column list of `pd.json_normalize(records)`. -/
def normalizeCols (records : List RecordObj) : List String :=
  records.foldl (fun acc r => insertKeys acc (recordPaths r)) []

/-- One row of `pd.json_normalize`: each column looked up in the record's
flattened entries, NaN when absent. -/
def rowOf (cols : List String) (r : RecordObj) : List Val :=
  cols.map (fun c =>
    match (flattenFields "" r).find? (fun kv => kv.1 == c) with
    | some kv => Val.int kv.2
    | none => Val.nan)

/-- `pd.json_normalize(parsed_messages)` (line 45): one row per record, one
column per dotted leaf path, fresh RangeIndex `0..n-1`. -/
def jsonNormalize (records : List RecordObj) : DF :=
  ⟨normalizeCols records, (records.map (rowOf (normalizeCols records))).enum⟩

/-- `pd.DataFrame(message_stamps, columns=["timestamp"])` (line 46). -/
def stampsDF (stamps : List Int) : DF :=
  ⟨["timestamp"], (stamps.map (fun t => [Val.int t])).enum⟩

/-- `a.join(b)` (line 47): pandas left join on the index; raises when the
column sets overlap (no suffix is given), fills NaN when a left index has no
match on the right. -/
def DF.join (a b : DF) : Except String DF :=
  if a.cols.any (fun c => b.cols.contains c) then
    .error "columns overlap but no suffix specified"
  else
    .ok ⟨a.cols ++ b.cols,
      a.rows.map (fun ir =>
        (ir.1, ir.2 ++
          match b.rows.find? (fun jr => jr.1 == ir.1) with
          | some jr => jr.2
          | none => b.cols.map (fun _ => Val.nan)))⟩

/-- `ignore_index=True` (line 48): the sorted rows are renumbered `0..n-1`. -/
def reindex (rs : List Row) : List Row := rs.enum.map (fun p => (p.1, p.2.2))

/-- A sorting back end for `DataFrame.sort_values(by=[col])`: it is given the
key extractor for the sort column and the rows. -/
abbrev SortFn := (Row → Val) → List Row → List Row

/-- The contract pandas documents for `sort_values` with the default
`kind='quicksort'`: the output rows are a permutation of the input rows and
are non-decreasing in the sort key.  Stability is **not** part of the
contract (only `kind='mergesort'`/`'stable'` are stable). -/
def SortSpec (sortV : SortFn) : Prop :=
  ∀ key rs, (sortV key rs).Perm rs ∧
    List.Chain' (fun x y => cellLe (key x) (key y) = true) (sortV key rs)

/-- Insertion placing `a` *after* every element whose key is ≤ its key:
building block of a sorting function that reverses the relative order of
equal keys. -/
def insertLate (key : Row → Val) (a : Row) : List Row → List Row
  | [] => [a]
  | b :: l => if cellLe (key b) (key a) then b :: insertLate key a l else a :: b :: l

/-- A sorting function satisfying the `sort_values(kind='quicksort')`
contract that is *not* stable: equal keys end up in reversed input order. -/
def badSort (key : Row → Val) : List Row → List Row
  | [] => []
  | a :: l => insertLate key a (badSort key l)

/-- The per-channel payload handed to `save_to_file`
(the dict built at lines 155-162). -/
structure TopicSaveData where
  topic_name : String
  parsed_messages : List RecordObj
  message_stamps : List Int

/-- One output file: its name inside the output directory and the table
serialized into it. -/
structure OutputFile where
  name : String
  table : DF
deriving DecidableEq, Repr

/-- `save_to_file` (lines 30-59), parameterized by the sorting back end
`sortV` standing for `sort_values(by=["timestamp"], ignore_index=True)`:
normalize the parsed messages, build the timestamp frame, join, sort by the
timestamp column, renumber the index, derive the file name from the topic,
and write in the chosen format; an unknown format falls through all three
branches and writes nothing. -/
def save_to_file (sortV : SortFn) (file_format : String) (data : TopicSaveData) :
    Except String (Option OutputFile) := do
  let df_messages := jsonNormalize data.parsed_messages
  let df_stamps := stampsDF data.message_stamps
  let dfj ← DF.join df_stamps df_messages
  let tsIdx := dfj.cols.indexOf "timestamp"
  let df_joined : DF :=
    ⟨dfj.cols, reindex (sortV (fun r => r.2.getD tsIdx Val.nan) dfj.rows)⟩
  let file_name ← fileNameE data.topic_name
  if file_format = "csv" then
    .ok (some ⟨file_name ++ ".csv", df_joined⟩)
  else if file_format = "parquet" then
    .ok (some ⟨file_name ++ ".parquet", df_joined⟩)
  else if file_format = "pickle" then
    .ok (some ⟨file_name ++ ".pkl", df_joined⟩)
  else
    .ok none

/-! ## The Channel Collector and the main pipeline -/

/-- One entry of `reader.get_all_topics_and_types()`: a topic name and its
message type name. -/
structure TopicMeta where
  name : String
  type : String
deriving DecidableEq, Repr

/-- One `(topic, data, timestamp)` triple yielded by `reader.read_next()`. -/
structure BagRecord where
  topic : String
  data : List Nat
  timestamp : Int
deriving DecidableEq, Repr

/-- The bag as seen through the reader: its topic/type catalog and its
records in storage order. -/
structure BagFile where
  catalog : List TopicMeta
  records : List BagRecord
deriving DecidableEq, Repr

/-- `topic_type_from_name` (lines 109-113): linear scan of the catalog for
the first entry with the given name; `ValueError` when absent. -/
def topic_type_from_name (catalog : List TopicMeta) (topic_name : String) :
    Except String String :=
  match catalog.find? (fun t => t.name == topic_name) with
  | some t => .ok t.type
  | none => .error ("Topic " ++ topic_name ++ " was not found in the bag")

/-- The collector's state: the two insertion-ordered dicts
`raw_message_data` (topic ↦ message type and raw records) and
`message_stamps` (topic ↦ timestamps), plus the observation `lookups`
recording which topic names were passed to `topic_type_from_name`
(instrumentation only; not a value of the program). -/
structure CollectState (MsgType : Type) where
  raw : List (String × MsgType × List (List Nat))
  stamps : List (String × List Int)
  lookups : List String
deriving DecidableEq, Repr

/-- `raw_message_data[topic]["raw_data"].append(data)`: append one raw
record to the entry with the given key. -/
def appendData {MsgType : Type} (l : List (String × MsgType × List (List Nat)))
    (t : String) (d : List Nat) : List (String × MsgType × List (List Nat)) :=
  l.map (fun e => if e.1 == t then (e.1, e.2.1, e.2.2 ++ [d]) else e)

/-- `message_stamps[topic].append(timestamp)`. -/
def appendStamp (l : List (String × List Int)) (t : String) (ts : Int) :
    List (String × List Int) :=
  l.map (fun e => if e.1 == t then (e.1, e.2 ++ [ts]) else e)

/-- One iteration of the collection loop (lines 121-134): create the two
dict entries on first sight of the topic (resolving its type, which can
fail), then append the raw bytes and the timestamp. -/
def collectStep {MsgType Msg : Type} (ext : Externals MsgType Msg)
    (catalog : List TopicMeta) (st : CollectState MsgType) (r : BagRecord) :
    Except String (CollectState MsgType) := do
  let raw1 ←
    if st.raw.any (fun e => e.1 == r.topic) then
      Except.ok st.raw
    else do
      let ty ← topic_type_from_name catalog r.topic
      Except.ok (st.raw ++ [(r.topic, ext.get_message ty, [])])
  let lookups1 :=
    if st.raw.any (fun e => e.1 == r.topic) then st.lookups
    else st.lookups ++ [r.topic]
  let stamps1 :=
    if st.stamps.any (fun e => e.1 == r.topic) then st.stamps
    else st.stamps ++ [(r.topic, [])]
  Except.ok
    { raw := appendData raw1 r.topic r.data
      stamps := appendStamp stamps1 r.topic r.timestamp
      lookups := lookups1 }

/-- The whole collection pass: the `while reader.has_next()` loop folded
over the records in storage order, starting from the two empty dicts. -/
def collectRun {MsgType Msg : Type} (ext : Externals MsgType Msg)
    (catalog : List TopicMeta) (records : List BagRecord) :
    Except String (CollectState MsgType) :=
  records.foldlM (collectStep ext catalog) ⟨[], [], []⟩

/-- `len(raw_message_data[name]["raw_data"])` (0 when the key is absent). -/
def rawCount {MsgType : Type} (st : CollectState MsgType) (name : String) : Nat :=
  match st.raw.find? (fun e => e.1 == name) with
  | some e => e.2.2.length
  | none => 0

/-- `len(message_stamps[name])` (0 when the key is absent). -/
def stampCount {MsgType : Type} (st : CollectState MsgType) (name : String) : Nat :=
  match st.stamps.find? (fun e => e.1 == name) with
  | some e => e.2.length
  | none => 0

/-- `Except.ok?` as a Bool. -/
def exceptOk {ε α : Type _} : Except ε α → Bool
  | .ok _ => true
  | .error _ => false

/-- Generic view of the two dicts: the length of the sequence stored under a
key (0 when absent), for a given length extractor. -/
def keyCount {β : Type _} (len : β → Nat) (l : List (String × β)) (name : String) : Nat :=
  match l.find? (fun e => e.1 == name) with
  | some e => len e.2
  | none => 0

/-- Generic view of the two appends: update the value stored under a key. -/
def keyUpdate {β : Type _} (upd : β → β) (l : List (String × β)) (t : String) :
    List (String × β) :=
  l.map (fun e => if e.1 == t then (e.1, upd e.2) else e)

/-- The `topic_save_data` list (lines 155-162), one dict per topic in
insertion order; `message_stamps[topic_name]` is a plain dict access whose
key is always present in `main` (modelled with default `[]`). -/
def topic_save_datas (parsed : List (String × List RecordObj))
    (stamps : List (String × List Int)) : List TopicSaveData :=
  parsed.map (fun p =>
    ⟨p.1, p.2, ((stamps.find? (fun e => e.1 == p.1)).map (·.2)).getD []⟩)

/-- The write stage (lines 163-172): `pool.imap(partial_save_to_file, ...)`
over all channels, collected with `list(...)`; the files written are the
non-`none` results. -/
def saveStage (sortV : SortFn) (file_format : String)
    (datas : List TopicSaveData) : Except String (List OutputFile) :=
  (datas.mapM (save_to_file sortV file_format)).map (fun l => l.filterMap id)

/-- `argparse` validation of an argument declared with `choices=[...]`:
parsing aborts when the value is not one of the choices. -/
def checkChoice (value : String) (choices : List String) : Except String String :=
  if value ∈ choices then .ok value
  else .error ("invalid choice: " ++ value)

/-- `main` (lines 62-172): parse and validate the arguments, collect the
records per channel, decode every channel's records in input order, and
write one table per channel.  Returns the list of files written. -/
def mainRun {MsgType Msg : Type} (ext : Externals MsgType Msg) (sortV : SortFn)
    (storage file_format : String) (bag : BagFile) :
    Except String (List OutputFile) := do
  let _ ← checkChoice storage ["sqlite3", "mcap"]
  let fmt ← checkChoice file_format ["csv", "parquet", "pickle"]
  let st ← collectRun ext bag.catalog bag.records
  let parsed := st.raw.map (fun e => (e.1, decodeStage ext e.2.1 e.2.2))
  saveStage sortV fmt (topic_save_datas parsed st.stamps)

/-- Trivial externals used to instantiate the pipeline on concrete inputs. -/
def extU : Externals Unit Unit :=
  ⟨fun _ => (), fun _ _ => (), fun _ => []⟩

/-- The per-channel result relation of the write stage: the channel yields
exactly one file, named from its flattened topic name and the chosen
format's extension. -/
def WriteNamed (fmt : String) (d : TopicSaveData) (out : OutputFile) : Prop :=
  ∃ base, fileNameE d.topic_name = Except.ok base ∧
    out.name = base ++ (if fmt = "pickle" then ".pkl"
      else if fmt = "parquet" then ".parquet" else ".csv")

/-! ## Helper lemmas -/

theorem chunksOf_flatten (n : Nat) : ∀ l : List α, (chunksOf n l).flatten = l
  | [] => by simp [chunksOf]
  | x :: xs => by
      rw [chunksOf]
      simp only [List.flatten_cons]
      rw [chunksOf_flatten n (xs.drop (n - 1))]
      simp
termination_by l => l.length
decreasing_by
  simp only [List.length_cons, List.length_drop]
  omega

theorem cellLe_total (a b : Val) : cellLe a b = true ∨ cellLe b a = true := by
  rcases a with a | _ <;> rcases b with b | _ <;> simp [cellLe]
  exact Int.le_total a b

theorem perm_insertLate (key : Row → Val) (a : Row) :
    ∀ l : List Row, (insertLate key a l).Perm (a :: l)
  | [] => List.Perm.refl _
  | b :: l => by
      rw [insertLate]
      by_cases h : cellLe (key b) (key a) = true
      · rw [if_pos h]
        exact ((perm_insertLate key a l).cons b).trans (List.Perm.swap a b l)
      · rw [if_neg h]

theorem head?_insertLate (key : Row → Val) (a : Row) (l : List Row) :
    (insertLate key a l).head? = some a ∨ (insertLate key a l).head? = l.head? := by
  cases l with
  | nil => left; rfl
  | cons b l =>
      rw [insertLate]
      by_cases h : cellLe (key b) (key a) = true
      · right; rw [if_pos h]; rfl
      · left; rw [if_neg h]; rfl

theorem chain'_insertLate (key : Row → Val) (a : Row) :
    ∀ l : List Row,
      List.Chain' (fun x y => cellLe (key x) (key y) = true) l →
      List.Chain' (fun x y => cellLe (key x) (key y) = true) (insertLate key a l)
  | [], _ => List.chain'_singleton a
  | b :: l, hc => by
      rw [insertLate]
      by_cases h : cellLe (key b) (key a) = true
      · rw [if_pos h]
        rw [List.chain'_cons']
        refine ⟨?_, chain'_insertLate key a l (List.Chain'.tail hc)⟩
        intro y hy
        rcases head?_insertLate key a l with h1 | h1
        · rw [h1] at hy
          cases hy
          exact h
        · rw [h1] at hy
          exact (List.chain'_cons'.mp hc).1 y hy
      · rw [if_neg h]
        rw [List.chain'_cons]
        refine ⟨?_, hc⟩
        rcases cellLe_total (key a) (key b) with h2 | h2
        · exact h2
        · exact absurd h2 h

theorem sortSpec_badSort : SortSpec badSort := by
  intro key rs
  constructor
  · induction rs with
    | nil => exact List.Perm.refl _
    | cons a l ih =>
        rw [badSort]
        exact (perm_insertLate key a (badSort key l)).trans (ih.cons a)
  · induction rs with
    | nil => exact List.chain'_nil
    | cons a l ih =>
        rw [badSort]
        exact chain'_insertLate key a (badSort key l) ih

theorem fileNameE_ok (s : String) (h : s ≠ "") : ∃ out, fileNameE s = Except.ok out := by
  cases s with
  | mk data =>
      cases data with
      | nil => exact absurd rfl h
      | cons c cs => exact ⟨_, rfl⟩

theorem save_to_file_eq (sortV : SortFn) (fmt : String) (data : TopicSaveData)
    (dfj : DF) (fname : String)
    (hj : DF.join (stampsDF data.message_stamps) (jsonNormalize data.parsed_messages) =
      .ok dfj)
    (hf : fileNameE data.topic_name = .ok fname) :
    save_to_file sortV fmt data =
      (let df_joined : DF :=
        ⟨dfj.cols,
          reindex (sortV (fun r => r.2.getD (dfj.cols.indexOf "timestamp") Val.nan)
            dfj.rows)⟩
       if fmt = "csv" then .ok (some ⟨fname ++ ".csv", df_joined⟩)
       else if fmt = "parquet" then .ok (some ⟨fname ++ ".parquet", df_joined⟩)
       else if fmt = "pickle" then .ok (some ⟨fname ++ ".pkl", df_joined⟩)
       else .ok none) := by
  simp only [save_to_file, hj, hf, bind, Except.bind]

/-! ## C2: channel name to file name -/

/-- C2 counterexample: the claim says only a *single* leading path separator
is stripped, so `//a` should map to `_a`; the code's `lstrip("/")` strips
*all* leading separators and maps `//a` to `a`. -/
theorem c2_counterexample :
    fileNameE "//a" = Except.ok "a" ∧ specFileName "//a" = "_a" ∧
      ("a" : String) ≠ "_a" :=
  ⟨rfl, rfl, by decide⟩

/-- C2 (amended): for every non-empty topic name, the output file base name
computed by `save_to_file` equals the topic name with **all** leading path
separators stripped and every remaining path separator replaced by an
underscore. -/
theorem c2_amended (s : String) (c : Char) (cs : List Char) (h : s.data = c :: cs) :
    fileNameE s = .ok ⟨(s.data.dropWhile (fun ch => ch == '/')).map mapSlash⟩ := by
  cases s with
  | mk data =>
      simp only at h
      subst h
      show Except.ok (⟨(if c ≠ '/' then c :: cs
          else (c :: cs).dropWhile (fun ch => ch == '/')).map mapSlash⟩ : String) =
        Except.ok ⟨((c :: cs).dropWhile (fun ch => ch == '/')).map mapSlash⟩
      by_cases hc : c = '/'
      · rw [if_neg (by simp [hc])]
      · rw [if_pos hc, List.dropWhile_cons, if_neg (by simpa using hc)]

theorem c2_amended_witness : fileNameE "/a/b" = Except.ok "a_b" := by
  have h := c2_amended "/a/b" '/' "a/b".data rfl
  exact h

/-! ## C10: totality of the file-name derivation -/

/-- C10: the file-name derivation indexes the first character of the topic
name; it succeeds exactly on non-empty topic names and fails on the empty
one. -/
theorem c10_fileName_total (s : String) : exceptOk (fileNameE s) = true ↔ s ≠ "" := by
  cases s with
  | mk data =>
      cases data with
      | nil =>
          constructor
          · intro h
            cases h
          · intro h
            exact absurd rfl h
      | cons c cs =>
          constructor
          · intro _ heq
            have hne : c :: cs = ([] : List Char) := congrArg String.data heq
            exact List.cons_ne_nil c cs hne
          · intro _
            rfl

/-! ## C3: the Parallel Decode Stage is an order-preserving map -/

/-- C3: for every channel, the decoded-record sequence produced by the
Parallel Decode Stage (`pool.imap` with chunking) has the same length as the
raw-record sequence and is exactly the in-order map of `parse_data` over it,
i.e. the i-th output is the decode of the i-th raw record. -/
theorem c3_decode_order {MsgType Msg : Type} (ext : Externals MsgType Msg)
    (message_type : MsgType) (raw_data : List (List Nat)) :
    (decodeStage ext message_type raw_data).length = raw_data.length ∧
      decodeStage ext message_type raw_data =
        raw_data.map (parse_data ext message_type) := by
  have h : decodeStage ext message_type raw_data =
      raw_data.map (parse_data ext message_type) := by
    unfold decodeStage
    rw [← List.map_flatten]
    rw [chunksOf_flatten]
  exact ⟨by rw [h, List.length_map], h⟩

/-! ## C9: unknown format is a silent no-op in `save_to_file` -/

/-- C9: called with a `file_format` outside {csv, parquet, pickle},
`save_to_file` falls through all three branches and returns normally,
writing no file, provided its own computation does not fail first (the join
succeeds and the topic name is non-empty). -/
theorem c9_unknown_format_noop (sortV : SortFn) (file_format : String)
    (data : TopicSaveData)
    (hfmt : file_format ∉ (["csv", "parquet", "pickle"] : List String))
    (hjoin : exceptOk (DF.join (stampsDF data.message_stamps)
      (jsonNormalize data.parsed_messages)) = true)
    (htopic : data.topic_name ≠ "") :
    save_to_file sortV file_format data = .ok none := by
  obtain ⟨dfj, hdfj⟩ : ∃ dfj, DF.join (stampsDF data.message_stamps)
      (jsonNormalize data.parsed_messages) = .ok dfj := by
    cases hj : DF.join (stampsDF data.message_stamps)
        (jsonNormalize data.parsed_messages) with
    | ok v => exact ⟨v, rfl⟩
    | error e => rw [hj] at hjoin; cases hjoin
  obtain ⟨fname, hfname⟩ := fileNameE_ok data.topic_name htopic
  rw [save_to_file_eq sortV file_format data dfj fname hdfj hfname]
  simp only [List.mem_cons, List.not_mem_nil, or_false, not_or] at hfmt
  obtain ⟨h1, h2, h3⟩ := hfmt
  simp only [if_neg h1, if_neg h2, if_neg h3]

theorem c9_witness :
    save_to_file badSort "xml" ⟨"/t", [[("x", JValue.scalar 1)]], [3]⟩ =
      Except.ok none :=
  c9_unknown_format_noop badSort "xml" _ (by decide) (by rfl) (by decide)

/-! ## C1: sorting of the channel table -/

theorem save_to_file_err (sortV : SortFn) (fmt : String) (data : TopicSaveData)
    (dfj : DF) (e : String)
    (hj : DF.join (stampsDF data.message_stamps) (jsonNormalize data.parsed_messages) =
      .ok dfj)
    (hn : fileNameE data.topic_name = .error e) :
    save_to_file sortV fmt data = .error e := by
  simp only [save_to_file, hj, hn, bind, Except.bind]

theorem save_ok_some_shape (sortV : SortFn) (fmt : String) (data : TopicSaveData)
    (dfj : DF) (fname : String) (f : OutputFile)
    (hj : DF.join (stampsDF data.message_stamps) (jsonNormalize data.parsed_messages) =
      .ok dfj)
    (hf : fileNameE data.topic_name = .ok fname)
    (hsave : save_to_file sortV fmt data = .ok (some f)) :
    f.table = ⟨dfj.cols,
      reindex (sortV (fun r => r.2.getD (dfj.cols.indexOf "timestamp") Val.nan)
        dfj.rows)⟩ := by
  rw [save_to_file_eq sortV fmt data dfj fname hj hf] at hsave
  by_cases h1 : fmt = "csv"
  · rw [if_pos h1] at hsave
    simp only [Except.ok.injEq, Option.some.injEq] at hsave
    rw [← hsave]
  · by_cases h2 : fmt = "parquet"
    · rw [if_neg h1, if_pos h2] at hsave
      simp only [Except.ok.injEq, Option.some.injEq] at hsave
      rw [← hsave]
    · by_cases h3 : fmt = "pickle"
      · rw [if_neg h1, if_neg h2, if_pos h3] at hsave
        simp only [Except.ok.injEq, Option.some.injEq] at hsave
        rw [← hsave]
      · rw [if_neg h1, if_neg h2, if_neg h3] at hsave
        simp at hsave

theorem reindex_map_fst (rs : List Row) :
    (reindex rs).map Prod.fst = List.range rs.length := by
  simp [reindex, List.map_map, Function.comp_def]

theorem reindex_map_snd (rs : List Row) :
    (reindex rs).map Prod.snd = rs.map Prod.snd := by
  unfold reindex
  rw [List.map_map]
  have h : (Prod.snd ∘ fun p : Nat × Row => (p.1, p.2.2)) =
      ((Prod.snd ∘ Prod.snd) : Nat × Row → List Val) := rfl
  rw [h, ← List.map_map, List.enum_map_snd]

theorem reindex_length (rs : List Row) : (reindex rs).length = rs.length := by
  simp [reindex]

theorem chain'_reindex (idx : Nat) (rs : List Row)
    (h : List.Chain'
      (fun x y => cellLe (x.2.getD idx Val.nan) (y.2.getD idx Val.nan) = true) rs) :
    List.Chain'
      (fun a b => cellLe (a.2.getD idx Val.nan) (b.2.getD idx Val.nan) = true)
      (reindex rs) := by
  unfold reindex
  rw [List.chain'_map]
  rw [← List.enum_map_snd rs] at h
  exact (List.chain'_map _).mp h

/-- C1 counterexample: `sort_values` is invoked with its default
`kind='quicksort'`, whose contract does not include stability.  `badSort`
satisfies that contract (`SortSpec`), yet on a channel with two records
carrying equal timestamps (`x = 1` first, `x = 2` second) the written table
has the tied rows in reversed original order, refuting the claim that the
original relative order is preserved among equal timestamps. -/
theorem c1_counterexample :
    SortSpec badSort ∧
      save_to_file badSort "csv"
          ⟨"/t", [[("x", JValue.scalar 1)], [("x", JValue.scalar 2)]], [5, 5]⟩ =
        Except.ok (some ⟨"t.csv", ⟨["timestamp", "x"],
          [(0, [Val.int 5, Val.int 2]), (1, [Val.int 5, Val.int 1])]⟩⟩) :=
  ⟨sortSpec_badSort, rfl⟩

/-- C1 (amended): for every channel table written by `save_to_file`, the
output rows are non-decreasing in the timestamp column, the row positions
are renumbered `0..n-1` after sorting, and the output row payloads are a
permutation of the pre-sort joined rows; the relative order of rows with
equal timestamps is *not* guaranteed (the sort uses the default non-stable
`quicksort` kind). -/
theorem c1_amended (sortV : SortFn) (hs : SortSpec sortV) (fmt : String)
    (data : TopicSaveData) (dfj : DF) (f : OutputFile)
    (hj : DF.join (stampsDF data.message_stamps) (jsonNormalize data.parsed_messages) =
      .ok dfj)
    (hsave : save_to_file sortV fmt data = .ok (some f)) :
    List.Chain'
        (fun a b => cellLe (a.2.getD (f.table.cols.indexOf "timestamp") Val.nan)
          (b.2.getD (f.table.cols.indexOf "timestamp") Val.nan) = true) f.table.rows ∧
      f.table.rows.map Prod.fst = List.range f.table.rows.length ∧
      (f.table.rows.map Prod.snd).Perm (dfj.rows.map Prod.snd) := by
  obtain ⟨fname, hfname⟩ : ∃ out, fileNameE data.topic_name = Except.ok out := by
    cases hn : fileNameE data.topic_name with
    | ok v => exact ⟨v, rfl⟩
    | error e =>
        rw [save_to_file_err sortV fmt data dfj e hj hn] at hsave
        cases hsave
  have hshape := save_ok_some_shape sortV fmt data dfj fname f hj hfname hsave
  set key : Row → Val := fun r => r.2.getD (dfj.cols.indexOf "timestamp") Val.nan with hkey
  have hcols : f.table.cols = dfj.cols := by rw [hshape]
  have hrows : f.table.rows = reindex (sortV key dfj.rows) := by rw [hshape]
  obtain ⟨hperm, hchain⟩ := hs key dfj.rows
  refine ⟨?_, ?_, ?_⟩
  · rw [hrows, hcols]
    exact chain'_reindex (dfj.cols.indexOf "timestamp") (sortV key dfj.rows) hchain
  · rw [hrows, reindex_map_fst, reindex_length]
  · rw [hrows, reindex_map_snd]
    exact hperm.map Prod.snd

theorem c1_amended_witness :
    List.Chain'
        (fun a b =>
          cellLe (a.2.getD ((["timestamp", "x"] : List String).indexOf "timestamp") Val.nan)
            (b.2.getD ((["timestamp", "x"] : List String).indexOf "timestamp") Val.nan) =
          true)
        [(0, [Val.int 5, Val.int 2]), (1, [Val.int 5, Val.int 1])] ∧
      ([(0, [Val.int 5, Val.int 2]), (1, [Val.int 5, Val.int 1])] : List Row).map
          Prod.fst = List.range 2 := by
  have h := c1_amended badSort sortSpec_badSort "csv"
    ⟨"/t", [[("x", JValue.scalar 1)], [("x", JValue.scalar 2)]], [5, 5]⟩
    ⟨["timestamp", "x"], [(0, [Val.int 5, Val.int 1]), (1, [Val.int 5, Val.int 2])]⟩
    ⟨"t.csv", ⟨["timestamp", "x"],
      [(0, [Val.int 5, Val.int 2]), (1, [Val.int 5, Val.int 1])]⟩⟩
    (by rfl) (by rfl)
  exact ⟨h.1, h.2.1⟩

/-! ## C8: one output file per channel -/

theorem save_ok_name (sortV : SortFn) (fmt : String) (data : TopicSaveData)
    (dfj : DF) (fname : String)
    (hj : DF.join (stampsDF data.message_stamps) (jsonNormalize data.parsed_messages) =
      .ok dfj)
    (hf : fileNameE data.topic_name = .ok fname)
    (hfmt : fmt ∈ (["csv", "parquet", "pickle"] : List String)) :
    ∃ tb, save_to_file sortV fmt data =
      .ok (some ⟨fname ++ (if fmt = "pickle" then ".pkl"
        else if fmt = "parquet" then ".parquet" else ".csv"), tb⟩) := by
  rw [save_to_file_eq sortV fmt data dfj fname hj hf]
  simp only [List.mem_cons, List.not_mem_nil, or_false] at hfmt
  rcases hfmt with h | h | h
  · subst h; exact ⟨_, rfl⟩
  · subst h; exact ⟨_, rfl⟩
  · subst h; exact ⟨_, rfl⟩

theorem mapM_save_ok (sortV : SortFn) (fmt : String)
    (hfmt : fmt ∈ (["csv", "parquet", "pickle"] : List String)) :
    ∀ datas : List TopicSaveData,
      (∀ d ∈ datas, d.topic_name ≠ "" ∧
        exceptOk (DF.join (stampsDF d.message_stamps)
          (jsonNormalize d.parsed_messages)) = true) →
      ∃ l, datas.mapM (save_to_file sortV fmt) = .ok l ∧
        List.Forall₂ (fun d o => ∃ out, o = some out ∧ WriteNamed fmt d out) datas l
  | [], _ => ⟨[], rfl, List.Forall₂.nil⟩
  | d :: ds, hvalid => by
      obtain ⟨htopic, hjoin⟩ := hvalid d (List.mem_cons_self d ds)
      obtain ⟨dfj, hdfj⟩ : ∃ dfj, DF.join (stampsDF d.message_stamps)
          (jsonNormalize d.parsed_messages) = .ok dfj := by
        cases hj : DF.join (stampsDF d.message_stamps)
            (jsonNormalize d.parsed_messages) with
        | ok v => exact ⟨v, rfl⟩
        | error e => rw [hj] at hjoin; cases hjoin
      obtain ⟨fname, hfname⟩ := fileNameE_ok d.topic_name htopic
      obtain ⟨tb, hsave⟩ := save_ok_name sortV fmt d dfj fname hdfj hfname hfmt
      obtain ⟨l, hl, hfa⟩ := mapM_save_ok sortV fmt hfmt ds
        (fun d' hd' => hvalid d' (List.mem_cons_of_mem d hd'))
      refine ⟨some ⟨fname ++ (if fmt = "pickle" then ".pkl"
          else if fmt = "parquet" then ".parquet" else ".csv"), tb⟩ :: l, ?_, ?_⟩
      · rw [List.mapM_cons, hsave, hl]
        rfl
      · exact List.Forall₂.cons ⟨_, rfl, fname, hfname, rfl⟩ hfa

theorem forall₂_filterMap_id {fmt : String} :
    ∀ {datas : List TopicSaveData} {l : List (Option OutputFile)},
      List.Forall₂ (fun d o => ∃ out, o = some out ∧ WriteNamed fmt d out) datas l →
      List.Forall₂ (WriteNamed fmt) datas (l.filterMap id)
  | _, _, List.Forall₂.nil => List.Forall₂.nil
  | _, _, List.Forall₂.cons ⟨out, ho, hw⟩ hfa => by
      rw [ho]
      exact List.Forall₂.cons hw (forall₂_filterMap_id hfa)

/-- C8 counterexample: distinct channel names can flatten to the same file
name — `/a/b` and `/a_b` both yield `a_b.csv` — so the claim that the
derived output paths of distinct channels are always distinct is false; the
later channel's write overwrites the earlier one's file. -/
theorem c8_counterexample :
    ("/a/b" : String) ≠ "/a_b" ∧
      save_to_file badSort "csv" ⟨"/a/b", [[("x", JValue.scalar 1)]], [3]⟩ =
        Except.ok (some ⟨"a_b.csv",
          ⟨["timestamp", "x"], [(0, [Val.int 3, Val.int 1])]⟩⟩) ∧
      save_to_file badSort "csv" ⟨"/a_b", [[("x", JValue.scalar 2)]], [4]⟩ =
        Except.ok (some ⟨"a_b.csv",
          ⟨["timestamp", "x"], [(0, [Val.int 4, Val.int 2])]⟩⟩) :=
  ⟨by decide, rfl, rfl⟩

/-- C8 (amended): the write stage produces exactly one output file per
channel, named `<flattened-channel-name>.<ext>` with the extension
determined by the chosen format (`csv`/`parquet`/`pkl`); however, distinct
channel names may flatten to the same file name (e.g. `/a/b` and `/a_b`),
so distinctness of the derived paths is not guaranteed. -/
theorem c8_amended (sortV : SortFn) (fmt : String) (datas : List TopicSaveData)
    (hfmt : fmt ∈ (["csv", "parquet", "pickle"] : List String))
    (hvalid : ∀ d ∈ datas, d.topic_name ≠ "" ∧
      exceptOk (DF.join (stampsDF d.message_stamps)
        (jsonNormalize d.parsed_messages)) = true) :
    ∃ outs, saveStage sortV fmt datas = .ok outs ∧
      List.Forall₂ (WriteNamed fmt) datas outs := by
  obtain ⟨l, hl, hfa⟩ := mapM_save_ok sortV fmt hfmt datas hvalid
  refine ⟨l.filterMap id, ?_, forall₂_filterMap_id hfa⟩
  unfold saveStage
  rw [hl]
  rfl

theorem c8_amended_witness :
    ∃ outs, saveStage badSort "csv"
        [⟨"/odom", [[("x", JValue.scalar 1)]], [3]⟩,
         ⟨"/imu", [[("y", JValue.scalar 2)]], [4]⟩] = .ok outs ∧
      List.Forall₂ (WriteNamed "csv")
        [⟨"/odom", [[("x", JValue.scalar 1)]], [3]⟩,
         ⟨"/imu", [[("y", JValue.scalar 2)]], [4]⟩] outs := by
  refine c8_amended badSort "csv" _ (by decide) ?_
  intro d hd
  simp only [List.mem_cons, List.not_mem_nil, or_false] at hd
  rcases hd with h | h
  · subst h; exact ⟨by decide, rfl⟩
  · subst h; exact ⟨by decide, rfl⟩

/-! ## C5: shape of the flattened channel table -/

theorem insertKeys_cons (cols : List String) (k : String) (ks : List String) :
    insertKeys cols (k :: ks) =
      insertKeys (if k ∈ cols then cols else cols ++ [k]) ks := rfl

theorem insertKeys_subset : ∀ (ks cols : List String),
    (∀ k ∈ ks, k ∈ cols) → insertKeys cols ks = cols
  | [], _, _ => rfl
  | k :: ks, cols, h => by
      rw [insertKeys_cons, if_pos (h k (List.mem_cons_self k ks))]
      exact insertKeys_subset ks cols (fun k' hk' => h k' (List.mem_cons_of_mem k hk'))

theorem insertKeys_fresh : ∀ (ks cols : List String),
    ks.Nodup → (∀ k ∈ ks, k ∉ cols) → insertKeys cols ks = cols ++ ks
  | [], cols, _, _ => by simp [insertKeys]
  | k :: ks, cols, hnd, h => by
      rw [insertKeys_cons, if_neg (h k (List.mem_cons_self k ks))]
      rw [insertKeys_fresh ks (cols ++ [k]) (List.Nodup.of_cons hnd) ?_]
      · simp
      · intro k' hk'
        rw [List.mem_append, List.mem_singleton]
        rintro (hc | hc)
        · exact h k' (List.mem_cons_of_mem k hk') hc
        · exact (List.nodup_cons.mp hnd).1 (hc ▸ hk')

theorem normalizeCols_go (P : List String) :
    ∀ rest : List RecordObj, (∀ r ∈ rest, recordPaths r = P) →
      rest.foldl (fun acc r => insertKeys acc (recordPaths r)) P = P
  | [], _ => rfl
  | r :: rest, h => by
      rw [List.foldl_cons, h r (List.mem_cons_self r rest),
        insertKeys_subset P P (fun k hk => hk)]
      exact normalizeCols_go P rest (fun r' hr' => h r' (List.mem_cons_of_mem r hr'))

theorem normalizeCols_paths (P : List String) (hnd : P.Nodup) :
    ∀ records : List RecordObj, records ≠ [] →
      (∀ r ∈ records, recordPaths r = P) → normalizeCols records = P
  | [], hne, _ => absurd rfl hne
  | r :: rest, _, h => by
      unfold normalizeCols
      rw [List.foldl_cons, h r (List.mem_cons_self r rest),
        insertKeys_fresh P [] hnd (fun k _ => List.not_mem_nil k), List.nil_append]
      exact normalizeCols_go P rest (fun r' hr' => h r' (List.mem_cons_of_mem r hr'))

theorem join_stamps_msgs (stamps : List Int) (msgs : List RecordObj)
    (hts : "timestamp" ∉ normalizeCols msgs) :
    ∃ dfj, DF.join (stampsDF stamps) (jsonNormalize msgs) = .ok dfj ∧
      dfj.cols = "timestamp" :: normalizeCols msgs ∧
      dfj.rows.length = stamps.length := by
  have hcond : ((stampsDF stamps).cols.any
      (fun c => (jsonNormalize msgs).cols.contains c)) = false := by
    simp [stampsDF, jsonNormalize]
    exact hts
  unfold DF.join
  rw [if_neg (by rw [hcond]; exact Bool.false_ne_true)]
  exact ⟨_, rfl, rfl, by simp [stampsDF]⟩

/-- C5: for a channel whose `n` decoded records all share the schema with
dotted leaf paths `P` (pairwise-distinct paths, none literally named
`timestamp`) and whose timestamp sequence also has length `n`, the table
written by `save_to_file` has exactly `n` rows and its columns are exactly
the `timestamp` column followed by `P` — no extra and no missing columns. -/
theorem c5_table_shape (sortV : SortFn) (hs : SortSpec sortV) (fmt : String)
    (hfmt : fmt ∈ (["csv", "parquet", "pickle"] : List String))
    (data : TopicSaveData) (P : List String)
    (hP : ∀ r ∈ data.parsed_messages, recordPaths r = P)
    (hnd : P.Nodup) (hts : "timestamp" ∉ P)
    (hne : data.parsed_messages ≠ [])
    (hlen : data.message_stamps.length = data.parsed_messages.length)
    (htopic : data.topic_name ≠ "") :
    ∃ f, save_to_file sortV fmt data = .ok (some f) ∧
      f.table.cols = "timestamp" :: P ∧
      f.table.rows.length = data.parsed_messages.length := by
  have hcols := normalizeCols_paths P hnd data.parsed_messages hne hP
  obtain ⟨dfj, hdfj, hjc, hjr⟩ := join_stamps_msgs data.message_stamps
    data.parsed_messages (by rw [hcols]; exact hts)
  obtain ⟨fname, hfname⟩ := fileNameE_ok data.topic_name htopic
  have hrl : ∀ key : Row → Val, (reindex (sortV key dfj.rows)).length =
      data.parsed_messages.length := by
    intro key
    rw [reindex_length, (hs key dfj.rows).1.length_eq, hjr, hlen]
  rw [save_to_file_eq sortV fmt data dfj fname hdfj hfname]
  have hc : dfj.cols = "timestamp" :: P := by rw [hjc, hcols]
  simp only [List.mem_cons, List.not_mem_nil, or_false] at hfmt
  rcases hfmt with h | h | h
  · subst h
    exact ⟨_, rfl, hc, hrl _⟩
  · subst h
    exact ⟨_, rfl, hc, hrl _⟩
  · subst h
    exact ⟨_, rfl, hc, hrl _⟩

theorem c5_witness :
    ∃ f, save_to_file badSort "csv"
        ⟨"/t", [[("a", JValue.scalar 1), ("b", JValue.obj [("c", JValue.scalar 2)])],
                [("a", JValue.scalar 3), ("b", JValue.obj [("c", JValue.scalar 4)])]],
         [9, 8]⟩ = .ok (some f) ∧
      f.table.cols = "timestamp" :: ["a", "b.c"] ∧
      f.table.rows.length = 2 :=
  c5_table_shape badSort sortSpec_badSort "csv" (by decide) _ ["a", "b.c"]
    (by decide) (by decide) (by decide) (List.cons_ne_nil _ _) (by decide) (by decide)

/-! ## C4: the two per-channel sequences stay in lockstep -/

theorem keyCount_append_new {β : Type _} (len : β → Nat) (t : String) (b0 : β)
    (h0 : len b0 = 0) :
    ∀ l : List (String × β), l.any (fun e => e.1 == t) = false →
      ∀ name, keyCount len (l ++ [(t, b0)]) name = keyCount len l name
  | [], _, name => by
      simp only [List.nil_append, keyCount, List.find?_nil, List.find?_cons]
      cases ht : (t == name) with
      | true => simp [h0]
      | false => simp
  | e :: l, hany, name => by
      simp only [List.any_cons, Bool.or_eq_false_iff] at hany
      obtain ⟨he, hl⟩ := hany
      simp only [List.cons_append, keyCount, List.find?_cons]
      cases hn : (e.1 == name) with
      | true => rfl
      | false => exact keyCount_append_new len t b0 h0 l hl name

theorem bool_eq_false {b : Bool} (h : ¬(b = true)) : b = false := by
  cases b
  · rfl
  · exact absurd rfl h

theorem find?_cons_pos {α : Type _} (p : α → Bool) (a : α) (l : List α)
    (h : p a = true) : List.find? p (a :: l) = some a := by
  rw [List.find?_cons, h]

theorem find?_cons_neg {α : Type _} (p : α → Bool) (a : α) (l : List α)
    (h : p a = false) : List.find? p (a :: l) = List.find? p l := by
  rw [List.find?_cons, h]

theorem keyCount_keyUpdate_self {β : Type _} (len : β → Nat) (upd : β → β)
    (hupd : ∀ b, len (upd b) = len b + 1) (t : String) :
    ∀ l : List (String × β), l.any (fun e => e.1 == t) = true →
      keyCount len (keyUpdate upd l t) t = keyCount len l t + 1
  | [], hany => by cases hany
  | e :: l, hany => by
      simp only [keyUpdate, List.map_cons]
      by_cases he : (e.1 == t) = true
      · rw [if_pos he]
        unfold keyCount
        rw [find?_cons_pos (fun e => e.1 == t) (e.1, upd e.2) _ he,
          find?_cons_pos (fun e => e.1 == t) e l he]
        exact hupd e.2
      · have heF : (e.1 == t) = false := bool_eq_false he
        rw [if_neg he]
        unfold keyCount
        rw [find?_cons_neg (fun e => e.1 == t) e _ heF,
          find?_cons_neg (fun e => e.1 == t) e l heF]
        have hany' := hany
        simp only [List.any_cons, Bool.or_eq_true] at hany'
        rcases hany' with h1 | h1
        · exact absurd h1 he
        · exact keyCount_keyUpdate_self len upd hupd t l h1

theorem keyCount_keyUpdate_ne {β : Type _} (len : β → Nat) (upd : β → β)
    (t name : String) (hne : name ≠ t) :
    ∀ l : List (String × β),
      keyCount len (keyUpdate upd l t) name = keyCount len l name
  | [] => rfl
  | e :: l => by
      simp only [keyUpdate, List.map_cons]
      by_cases he : (e.1 == t) = true
      · rw [if_pos he]
        have hn : (e.1 == name) = false := by
          have h1 : e.1 = t := by simpa using he
          simp only [beq_eq_false_iff_ne]
          rw [h1]
          exact fun hcontra => hne hcontra.symm
        unfold keyCount
        rw [find?_cons_neg (fun e => e.1 == name) (e.1, upd e.2) _ hn,
          find?_cons_neg (fun e => e.1 == name) e l hn]
        exact keyCount_keyUpdate_ne len upd t name hne l
      · rw [if_neg he]
        unfold keyCount
        by_cases hn : (e.1 == name) = true
        · rw [find?_cons_pos (fun e => e.1 == name) e _ hn,
            find?_cons_pos (fun e => e.1 == name) e l hn]
        · have hnF : (e.1 == name) = false := bool_eq_false hn
          rw [find?_cons_neg (fun e => e.1 == name) e _ hnF,
            find?_cons_neg (fun e => e.1 == name) e l hnF]
          exact keyCount_keyUpdate_ne len upd t name hne l

theorem rawCount_eq_keyCount {MsgType : Type} (st : CollectState MsgType)
    (name : String) :
    rawCount st name = keyCount (fun b => b.2.length) st.raw name := by
  unfold rawCount keyCount
  cases st.raw.find? (fun e => e.1 == name) with
  | none => rfl
  | some e => rfl

theorem stampCount_eq_keyCount {MsgType : Type} (st : CollectState MsgType)
    (name : String) :
    stampCount st name = keyCount (fun b => b.length) st.stamps name := by
  unfold stampCount keyCount
  cases st.stamps.find? (fun e => e.1 == name) with
  | none => rfl
  | some e => rfl

theorem appendData_eq_keyUpdate {MsgType : Type}
    (l : List (String × MsgType × List (List Nat))) (t : String) (d : List Nat) :
    appendData l t d = keyUpdate (fun b => (b.1, b.2 ++ [d])) l t := rfl

theorem appendStamp_eq_keyUpdate (l : List (String × List Int)) (t : String)
    (ts : Int) :
    appendStamp l t ts = keyUpdate (fun b => b ++ [ts]) l t := rfl

theorem any_append_self {β : Type _} (l : List (String × β)) (t : String) (b : β) :
    (l ++ [(t, b)]).any (fun e => e.1 == t) = true := by
  simp [List.any_append]

theorem collectStep_counts {MsgType Msg : Type} (ext : Externals MsgType Msg)
    (catalog : List TopicMeta) (st st' : CollectState MsgType) (r : BagRecord)
    (h : collectStep ext catalog st r = .ok st') (name : String) :
    rawCount st' name = rawCount st name + (if name = r.topic then 1 else 0) ∧
      stampCount st' name = stampCount st name + (if name = r.topic then 1 else 0) := by
  have hraw : ∀ (raw1 : List (String × MsgType × List (List Nat))),
      raw1.any (fun e => e.1 == r.topic) = true →
      keyCount (fun b => b.2.length) raw1 name = rawCount st name →
      keyCount (fun b => b.2.length) (appendData raw1 r.topic r.data) name =
        rawCount st name + (if name = r.topic then 1 else 0) := by
    intro raw1 hany1 hbase
    rw [appendData_eq_keyUpdate]
    by_cases hn : name = r.topic
    · subst hn
      rw [keyCount_keyUpdate_self (fun b => b.2.length)
          (fun b => (b.1, b.2 ++ [r.data])) (fun b => by simp) r.topic raw1 hany1,
        hbase, if_pos rfl]
    · rw [keyCount_keyUpdate_ne (fun b => b.2.length)
          (fun b => (b.1, b.2 ++ [r.data])) r.topic name hn raw1,
        hbase, if_neg hn, Nat.add_zero]
  have hstamp : ∀ (stamps1 : List (String × List Int)),
      stamps1.any (fun e => e.1 == r.topic) = true →
      keyCount (fun b => b.length) stamps1 name = stampCount st name →
      keyCount (fun b => b.length) (appendStamp stamps1 r.topic r.timestamp) name =
        stampCount st name + (if name = r.topic then 1 else 0) := by
    intro stamps1 hany1 hbase
    rw [appendStamp_eq_keyUpdate]
    by_cases hn : name = r.topic
    · subst hn
      rw [keyCount_keyUpdate_self (fun b => b.length)
          (fun b => b ++ [r.timestamp]) (fun b => by simp) r.topic stamps1 hany1,
        hbase, if_pos rfl]
    · rw [keyCount_keyUpdate_ne (fun b => b.length)
          (fun b => b ++ [r.timestamp]) r.topic name hn stamps1,
        hbase, if_neg hn, Nat.add_zero]
  have hstampSide :
      keyCount (fun b => b.length)
          (appendStamp (if st.stamps.any (fun e => e.1 == r.topic) then st.stamps
            else st.stamps ++ [(r.topic, [])]) r.topic r.timestamp) name =
        stampCount st name + (if name = r.topic then 1 else 0) := by
    by_cases hany2 : st.stamps.any (fun e => e.1 == r.topic) = true
    · rw [if_pos hany2]
      exact hstamp st.stamps hany2 (stampCount_eq_keyCount st name).symm
    · rw [if_neg hany2]
      have hany2F : st.stamps.any (fun e => e.1 == r.topic) = false :=
        bool_eq_false hany2
      refine hstamp (st.stamps ++ [(r.topic, [])]) (any_append_self _ _ _) ?_
      rw [keyCount_append_new (fun b => b.length) r.topic [] rfl st.stamps
        hany2F name]
      exact (stampCount_eq_keyCount st name).symm
  by_cases hany : st.raw.any (fun e => e.1 == r.topic) = true
  · have hst : (⟨appendData st.raw r.topic r.data,
        appendStamp (if st.stamps.any (fun e => e.1 == r.topic)
          then st.stamps else st.stamps ++ [(r.topic, [])]) r.topic r.timestamp,
        st.lookups⟩ : CollectState MsgType) = st' := by
      rw [collectStep] at h
      rw [if_pos hany, if_pos hany] at h
      simp only [bind, Except.bind, Except.ok.injEq] at h
      exact h
    rw [← hst]
    constructor
    · rw [rawCount_eq_keyCount]
      exact hraw st.raw hany (rawCount_eq_keyCount st name).symm
    · rw [stampCount_eq_keyCount]
      exact hstampSide
  · have hanyF : st.raw.any (fun e => e.1 == r.topic) = false := bool_eq_false hany
    cases hty : topic_type_from_name catalog r.topic with
    | error e =>
        rw [collectStep] at h
        rw [if_neg hany, if_neg hany] at h
        rw [hty] at h
        simp only [bind, Except.bind] at h
        exact Except.noConfusion h
    | ok ty =>
        have hst : (⟨appendData (st.raw ++ [(r.topic, ext.get_message ty, [])])
            r.topic r.data,
          appendStamp (if st.stamps.any (fun e => e.1 == r.topic)
            then st.stamps else st.stamps ++ [(r.topic, [])]) r.topic r.timestamp,
          st.lookups ++ [r.topic]⟩ : CollectState MsgType) = st' := by
          rw [collectStep] at h
          rw [if_neg hany, if_neg hany] at h
          rw [hty] at h
          simp only [bind, Except.bind, Except.ok.injEq] at h
          exact h
        rw [← hst]
        constructor
        · rw [rawCount_eq_keyCount]
          refine hraw (st.raw ++ [(r.topic, ext.get_message ty, [])])
            (any_append_self _ _ _) ?_
          rw [keyCount_append_new (fun b => b.2.length) r.topic
            (ext.get_message ty, []) rfl st.raw hanyF name]
          exact (rawCount_eq_keyCount st name).symm
        · rw [stampCount_eq_keyCount]
          exact hstampSide

theorem collect_foldlM_inv {MsgType Msg : Type} (ext : Externals MsgType Msg)
    (catalog : List TopicMeta) :
    ∀ (records : List BagRecord) (st st' : CollectState MsgType),
      records.foldlM (collectStep ext catalog) st = .ok st' →
      (∀ name, rawCount st name = stampCount st name) →
      ∀ name, rawCount st' name = stampCount st' name
  | [], st, st', h, hinv => by
      simp only [List.foldlM_nil] at h
      cases h
      exact hinv
  | r :: records, st, st', h, hinv => by
      rw [List.foldlM_cons] at h
      cases hstep : collectStep ext catalog st r with
      | error e =>
          rw [hstep] at h
          simp only [bind, Except.bind] at h
          exact Except.noConfusion h
      | ok st1 =>
          rw [hstep] at h
          have h2 : records.foldlM (collectStep ext catalog) st1 = .ok st' := h
          have hinv1 : ∀ name, rawCount st1 name = stampCount st1 name := by
            intro name
            obtain ⟨h3, h4⟩ := collectStep_counts ext catalog st st1 r hstep name
            rw [h3, h4, hinv name]
          exact collect_foldlM_inv ext catalog records st1 st' h2 hinv1

/-- C4: after every prefix of the record stream that the collection pass
processes successfully, every channel's raw-bytes sequence and timestamp
sequence have equal length — each record appends exactly one element to
each sequence of its channel. -/
theorem c4_lengths_match {MsgType Msg : Type} (ext : Externals MsgType Msg)
    (catalog : List TopicMeta) (records : List BagRecord) (k : Nat)
    (st : CollectState MsgType)
    (h : collectRun ext catalog (records.take k) = .ok st) (name : String) :
    rawCount st name = stampCount st name :=
  collect_foldlM_inv ext catalog (records.take k) ⟨[], [], []⟩ st h
    (fun _ => rfl) name

theorem c4_witness :
    rawCount (⟨[("t", (), [[1], [2]])], [("t", [5, 6])], ["t"]⟩ :
        CollectState Unit) "t" =
      stampCount (⟨[("t", (), [[1], [2]])], [("t", [5, 6])], ["t"]⟩ :
        CollectState Unit) "t" :=
  c4_lengths_match extU [⟨"t", "T"⟩]
    [⟨"t", [1], 5⟩, ⟨"t", [2], 6⟩] 2 _ (by rfl) "t"

/-! ## C6: unknown channel name aborts the run; lookups happen once -/

theorem topic_type_err (catalog : List TopicMeta) (name : String)
    (h : name ∉ catalog.map TopicMeta.name) :
    topic_type_from_name catalog name =
      .error ("Topic " ++ name ++ " was not found in the bag") := by
  have hf : catalog.find? (fun t => t.name == name) = none := by
    rw [List.find?_eq_none]
    intro t ht hcontra
    apply h
    have heq : t.name = name := by simpa using hcontra
    rw [← heq]
    exact List.mem_map_of_mem TopicMeta.name ht
  unfold topic_type_from_name
  rw [hf]

theorem topic_type_ok_mem (catalog : List TopicMeta) (name ty : String)
    (h : topic_type_from_name catalog name = .ok ty) :
    name ∈ catalog.map TopicMeta.name := by
  unfold topic_type_from_name at h
  cases hf : catalog.find? (fun t => t.name == name) with
  | none => rw [hf] at h; exact Except.noConfusion h
  | some t0 =>
      have hmem := List.mem_of_find?_eq_some hf
      have hp := List.find?_some hf
      have heq : t0.name = name := by simpa using hp
      rw [← heq]
      exact List.mem_map_of_mem TopicMeta.name hmem

theorem topic_type_ok (catalog : List TopicMeta) (name : String)
    (h : name ∈ catalog.map TopicMeta.name) :
    ∃ ty, topic_type_from_name catalog name = .ok ty := by
  obtain ⟨tm, htm, heq⟩ := List.mem_map.mp h
  cases hf : catalog.find? (fun t => t.name == name) with
  | none =>
      rw [List.find?_eq_none] at hf
      exact absurd (by simp [heq]) (hf tm htm)
  | some t0 =>
      refine ⟨t0.type, ?_⟩
      unfold topic_type_from_name
      rw [hf]

theorem collectStep_ok_seen {MsgType Msg : Type} (ext : Externals MsgType Msg)
    (catalog : List TopicMeta) (st : CollectState MsgType) (r : BagRecord)
    (hany : st.raw.any (fun e => e.1 == r.topic) = true) :
    collectStep ext catalog st r = .ok
      ⟨appendData st.raw r.topic r.data,
       appendStamp (if st.stamps.any (fun e => e.1 == r.topic) then st.stamps
         else st.stamps ++ [(r.topic, [])]) r.topic r.timestamp,
       st.lookups⟩ := by
  rw [collectStep]
  rw [if_pos hany, if_pos hany]
  simp only [bind, Except.bind]

theorem collectStep_ok_new {MsgType Msg : Type} (ext : Externals MsgType Msg)
    (catalog : List TopicMeta) (st : CollectState MsgType) (r : BagRecord)
    (ty : String) (hany : ¬(st.raw.any (fun e => e.1 == r.topic) = true))
    (hty : topic_type_from_name catalog r.topic = .ok ty) :
    collectStep ext catalog st r = .ok
      ⟨appendData (st.raw ++ [(r.topic, ext.get_message ty, [])]) r.topic r.data,
       appendStamp (if st.stamps.any (fun e => e.1 == r.topic) then st.stamps
         else st.stamps ++ [(r.topic, [])]) r.topic r.timestamp,
       st.lookups ++ [r.topic]⟩ := by
  rw [collectStep]
  rw [if_neg hany, if_neg hany, hty]
  simp only [bind, Except.bind]

theorem collectStep_err_new {MsgType Msg : Type} (ext : Externals MsgType Msg)
    (catalog : List TopicMeta) (st : CollectState MsgType) (r : BagRecord)
    (e : String) (hany : ¬(st.raw.any (fun e => e.1 == r.topic) = true))
    (hty : topic_type_from_name catalog r.topic = .error e) :
    collectStep ext catalog st r = .error e := by
  rw [collectStep]
  rw [if_neg hany, if_neg hany, hty]
  simp only [bind, Except.bind]

theorem appendData_any {MsgType : Type} (t : String) (d : List Nat) (n : String) :
    ∀ l : List (String × MsgType × List (List Nat)),
      (appendData l t d).any (fun e => e.1 == n) = l.any (fun e => e.1 == n)
  | [] => rfl
  | e :: l => by
      simp only [appendData, List.map_cons, List.any_cons]
      have hh : ((if (e.1 == t) = true then (e.1, e.2.1, e.2.2 ++ [d]) else e).1 == n) =
          (e.1 == n) := by
        by_cases hc : (e.1 == t) = true
        · rw [if_pos hc]
        · rw [if_neg hc]
      rw [hh]
      have ht := appendData_any t d n l
      simp only [appendData] at ht
      rw [ht]

theorem appendData_entry_keys {MsgType : Type} (t : String) (d : List Nat)
    (P : String → Prop) (l : List (String × MsgType × List (List Nat)))
    (h : ∀ e ∈ l, P e.1) :
    ∀ e' ∈ appendData l t d, P e'.1 := by
  intro e' he'
  unfold appendData at he'
  obtain ⟨e, he, heq⟩ := List.mem_map.mp he'
  rw [← heq]
  by_cases hc : (e.1 == t) = true
  · rw [if_pos hc]
    exact h e he
  · rw [if_neg hc]
    exact h e he

theorem collectStep_keys {MsgType Msg : Type} (ext : Externals MsgType Msg)
    (catalog : List TopicMeta) (st st' : CollectState MsgType) (r : BagRecord)
    (h : collectStep ext catalog st r = .ok st')
    (hkeys : ∀ e ∈ st.raw, e.1 ∈ catalog.map TopicMeta.name) :
    ∀ e ∈ st'.raw, e.1 ∈ catalog.map TopicMeta.name := by
  by_cases hany : st.raw.any (fun e => e.1 == r.topic) = true
  · rw [collectStep_ok_seen ext catalog st r hany] at h
    simp only [Except.ok.injEq] at h
    subst h
    exact appendData_entry_keys r.topic r.data _ st.raw hkeys
  · cases hty : topic_type_from_name catalog r.topic with
    | error e =>
        rw [collectStep_err_new ext catalog st r e hany hty] at h
        exact Except.noConfusion h
    | ok ty =>
        rw [collectStep_ok_new ext catalog st r ty hany hty] at h
        simp only [Except.ok.injEq] at h
        subst h
        apply appendData_entry_keys
        intro e he
        rcases List.mem_append.mp he with h1 | h1
        · exact hkeys e h1
        · have heq : e = (r.topic, ext.get_message ty, []) := List.mem_singleton.mp h1
          rw [heq]
          exact topic_type_ok_mem catalog r.topic ty hty

theorem collectStep_lookups {MsgType Msg : Type} (ext : Externals MsgType Msg)
    (catalog : List TopicMeta) (st st' : CollectState MsgType) (r : BagRecord)
    (h : collectStep ext catalog st r = .ok st')
    (hnd : st.lookups.Nodup)
    (hsub : ∀ n ∈ st.lookups, st.raw.any (fun e => e.1 == n) = true) :
    st'.lookups.Nodup ∧
      ∀ n ∈ st'.lookups, st'.raw.any (fun e => e.1 == n) = true := by
  by_cases hany : st.raw.any (fun e => e.1 == r.topic) = true
  · rw [collectStep_ok_seen ext catalog st r hany] at h
    simp only [Except.ok.injEq] at h
    subst h
    refine ⟨hnd, ?_⟩
    intro n hn
    rw [appendData_any]
    exact hsub n hn
  · cases hty : topic_type_from_name catalog r.topic with
    | error e =>
        rw [collectStep_err_new ext catalog st r e hany hty] at h
        exact Except.noConfusion h
    | ok ty =>
        rw [collectStep_ok_new ext catalog st r ty hany hty] at h
        simp only [Except.ok.injEq] at h
        subst h
        constructor
        · rw [List.nodup_append]
          refine ⟨hnd, List.nodup_singleton _, ?_⟩
          intro a ha hb
          have heq : a = r.topic := List.mem_singleton.mp hb
          rw [heq] at ha
          exact hany (hsub r.topic ha)
        · intro n hn
          rw [appendData_any]
          rcases List.mem_append.mp hn with h1 | h1
          · rw [List.any_append, hsub n h1]
            rfl
          · have heq : n = r.topic := List.mem_singleton.mp h1
            rw [heq]
            exact any_append_self st.raw r.topic (ext.get_message ty, [])

theorem collectStep_ok_known {MsgType Msg : Type} (ext : Externals MsgType Msg)
    (catalog : List TopicMeta) (st : CollectState MsgType) (r : BagRecord)
    (htop : r.topic ∈ catalog.map TopicMeta.name) :
    ∃ st1, collectStep ext catalog st r = .ok st1 := by
  by_cases hany : st.raw.any (fun e => e.1 == r.topic) = true
  · exact ⟨_, collectStep_ok_seen ext catalog st r hany⟩
  · obtain ⟨ty, hty⟩ := topic_type_ok catalog r.topic htop
    exact ⟨_, collectStep_ok_new ext catalog st r ty hany hty⟩

theorem collect_err {MsgType Msg : Type} (ext : Externals MsgType Msg)
    (catalog : List TopicMeta) :
    ∀ (records : List BagRecord) (st : CollectState MsgType),
      (∀ e ∈ st.raw, e.1 ∈ catalog.map TopicMeta.name) →
      (∃ r ∈ records, r.topic ∉ catalog.map TopicMeta.name) →
      ∃ e, records.foldlM (collectStep ext catalog) st = .error e
  | [], _, _, hbad => by
      rcases hbad with ⟨r, hr, _⟩
      exact absurd hr (List.not_mem_nil r)
  | r :: records, st, hkeys, hbad => by
      by_cases htop : r.topic ∈ catalog.map TopicMeta.name
      · obtain ⟨st1, hst1⟩ := collectStep_ok_known ext catalog st r htop
        have hkeys1 := collectStep_keys ext catalog st st1 r hst1 hkeys
        rcases hbad with ⟨rb, hrb, hbadb⟩
        rcases List.mem_cons.mp hrb with h1 | h1
        · exact absurd htop (h1 ▸ hbadb)
        · obtain ⟨e, he⟩ := collect_err ext catalog records st1 hkeys1 ⟨rb, h1, hbadb⟩
          refine ⟨e, ?_⟩
          rw [List.foldlM_cons, hst1]
          exact he
      · have hany : ¬(st.raw.any (fun e => e.1 == r.topic) = true) := by
          intro hcontra
          rcases List.any_eq_true.mp hcontra with ⟨x, hx, hpx⟩
          have heq : x.1 = r.topic := by simpa using hpx
          exact htop (heq ▸ hkeys x hx)
        have herr := collectStep_err_new ext catalog st r _ hany
          (topic_type_err catalog r.topic htop)
        refine ⟨"Topic " ++ r.topic ++ " was not found in the bag", ?_⟩
        rw [List.foldlM_cons, herr]
        rfl

theorem collect_fold_look {MsgType Msg : Type} (ext : Externals MsgType Msg)
    (catalog : List TopicMeta) :
    ∀ (records : List BagRecord) (st st' : CollectState MsgType),
      records.foldlM (collectStep ext catalog) st = .ok st' →
      st.lookups.Nodup →
      (∀ n ∈ st.lookups, st.raw.any (fun e => e.1 == n) = true) →
      st'.lookups.Nodup
  | [], st, st', h, hnd, _ => by
      simp only [List.foldlM_nil] at h
      cases h
      exact hnd
  | r :: records, st, st', h, hnd, hsub => by
      rw [List.foldlM_cons] at h
      cases hstep : collectStep ext catalog st r with
      | error e =>
          rw [hstep] at h
          simp only [bind, Except.bind] at h
          exact Except.noConfusion h
      | ok st1 =>
          rw [hstep] at h
          obtain ⟨hnd1, hsub1⟩ :=
            collectStep_lookups ext catalog st st1 r hstep hnd hsub
          exact collect_fold_look ext catalog records st1 st' h hnd1 hsub1

/-- C6: with valid arguments, a record whose channel name is absent from the
bag's topic/type catalog makes the run fail (the collection pass raises a
lookup error before any output is produced), and along any successfully
collected prefix each channel name is passed to the catalog lookup at most
once (only on first sight). -/
theorem c6_unknown_channel_aborts {MsgType Msg : Type} (ext : Externals MsgType Msg)
    (sortV : SortFn) (storage file_format : String) (bag : BagFile)
    (hs : storage ∈ (["sqlite3", "mcap"] : List String))
    (hf : file_format ∈ (["csv", "parquet", "pickle"] : List String))
    (hbad : ∃ r ∈ bag.records, r.topic ∉ bag.catalog.map TopicMeta.name) :
    exceptOk (mainRun ext sortV storage file_format bag) = false ∧
      ∀ (k : Nat) (st : CollectState MsgType),
        collectRun ext bag.catalog (bag.records.take k) = .ok st →
        st.lookups.Nodup := by
  constructor
  · obtain ⟨e, he⟩ := collect_err ext bag.catalog bag.records ⟨[], [], []⟩
      (fun x hx => absurd hx (List.not_mem_nil x)) hbad
    have hcs : checkChoice storage ["sqlite3", "mcap"] = .ok storage := by
      unfold checkChoice
      rw [if_pos hs]
    have hcf : checkChoice file_format ["csv", "parquet", "pickle"] =
        .ok file_format := by
      unfold checkChoice
      rw [if_pos hf]
    have he' : collectRun ext bag.catalog bag.records = .error e := he
    simp only [mainRun, hcs, hcf, he', bind, Except.bind]
    rfl
  · intro k st hrun
    exact collect_fold_look ext bag.catalog (bag.records.take k) ⟨[], [], []⟩ st
      hrun List.nodup_nil (fun n hn => absurd hn (List.not_mem_nil n))

theorem c6_witness :
    exceptOk (mainRun extU badSort "mcap" "csv"
      ⟨[⟨"t", "T"⟩], [⟨"u", [1], 5⟩]⟩) = false :=
  (c6_unknown_channel_aborts extU badSort "mcap" "csv"
    ⟨[⟨"t", "T"⟩], [⟨"u", [1], 5⟩]⟩ (by decide) (by decide) (by decide)).1

/-! ## C7: an unsupported output format is rejected before anything runs -/

/-- C7: a format outside {csv, parquet, pickle} is rejected by the argument
parser: the run fails, and its result does not depend on the bag at all —
no part of the log is read and no output file is written. -/
theorem c7_bad_format_rejected {MsgType Msg : Type} (ext : Externals MsgType Msg)
    (sortV : SortFn) (storage file_format : String)
    (hbad : file_format ∉ (["csv", "parquet", "pickle"] : List String)) :
    ∀ bag bag' : BagFile,
      mainRun ext sortV storage file_format bag =
        mainRun ext sortV storage file_format bag' ∧
      exceptOk (mainRun ext sortV storage file_format bag) = false := by
  intro bag bag'
  by_cases hs : storage ∈ (["sqlite3", "mcap"] : List String)
  · have hcs : checkChoice storage ["sqlite3", "mcap"] = .ok storage := by
      unfold checkChoice
      rw [if_pos hs]
    have hcf : checkChoice file_format ["csv", "parquet", "pickle"] =
        .error ("invalid choice: " ++ file_format) := by
      unfold checkChoice
      rw [if_neg hbad]
    constructor
    · simp only [mainRun, hcs, hcf, bind, Except.bind]
    · simp only [mainRun, hcs, hcf, bind, Except.bind]
      rfl
  · have hcs : checkChoice storage ["sqlite3", "mcap"] =
        .error ("invalid choice: " ++ storage) := by
      unfold checkChoice
      rw [if_neg hs]
    constructor
    · simp only [mainRun, hcs, bind, Except.bind]
    · simp only [mainRun, hcs, bind, Except.bind]
      rfl

theorem c7_witness :
    mainRun extU badSort "mcap" "xml" ⟨[⟨"t", "T"⟩], [⟨"t", [1], 5⟩]⟩ =
        mainRun extU badSort "mcap" "xml" ⟨[⟨"q", "Q"⟩], [⟨"q", [2], 6⟩]⟩ ∧
      exceptOk (mainRun extU badSort "mcap" "xml"
        ⟨[⟨"t", "T"⟩], [⟨"t", [1], 5⟩]⟩) = false :=
  c7_bad_format_rejected extU badSort "mcap" "xml" (by decide)
    ⟨[⟨"t", "T"⟩], [⟨"t", [1], 5⟩]⟩ ⟨[⟨"q", "Q"⟩], [⟨"q", [2], 6⟩]⟩

end Rosbag2Pandas
